import Mathlib

/-!
Shallow embedding of the PriceAIFB extraction-and-valuation core.

Text is modelled as `List Char`.  The Python regex classes `\s` and `\w`
are modelled over the alphabet the repository actually handles: ASCII
whitespace for `\s` and `str.split`, ASCII alphanumerics plus underscore
for the ASCII part of `\w`, and the Hebrew Unicode block U+0590..U+05FF
(which the source keeps explicitly).  Python floats are modelled as `ℚ`;
the claims under study only involve values on which binary floating
point is exact, and none of them depend on rounding.
-/

namespace MarketScout

/-- ASCII whitespace, the characters `str.split()` and `str.strip()` split on. -/
def isSpaceChar (c : Char) : Bool :=
  c = ' ' || c = '\t' || c = '\n' || c = '\r' || c = '\x0b' || c = '\x0c'

/-- The Hebrew Unicode block `֐-׿` kept by `normalize_text`. -/
def isHebrewChar (c : Char) : Bool :=
  0x590 ≤ c.toNat && c.toNat ≤ 0x5FF

/-- ASCII part of the regex class `\w`: alphanumerics and underscore. -/
def isWordChar (c : Char) : Bool :=
  c.isAlphanum || c = '_'

/-- Characters NOT replaced by `re.sub(r"[^\w\s֐-׿]", " ", text)`. -/
def keepChar (c : Char) : Bool :=
  isWordChar c || isSpaceChar c || isHebrewChar c

/-- One substitution step of `re.sub(r"[^\w\s֐-׿]", " ", text)`:
a character outside the class is replaced by a space. -/
def replChar (c : Char) : Char :=
  if keepChar c then c else ' '

/-- Accumulator worker for `str.split()`: `acc` holds the current word,
reversed. -/
def wordsAux : List Char → List Char → List (List Char)
  | acc, [] => if acc = [] then [] else [acc.reverse]
  | acc, c :: cs =>
    if isSpaceChar c then
      if acc = [] then wordsAux [] cs else acc.reverse :: wordsAux [] cs
    else wordsAux (c :: acc) cs

/-- Python `text.split()`: maximal runs of non-whitespace characters. -/
def words (s : List Char) : List (List Char) :=
  wordsAux [] s

/-- Python `" ".join(ws)`. -/
def joinSpace : List (List Char) → List Char
  | [] => []
  | [w] => w
  | w :: ws => w ++ ' ' :: joinSpace ws

/-- Python `text.strip()`: drop leading and trailing whitespace. -/
def pyStrip (s : List Char) : List Char :=
  ((s.dropWhile isSpaceChar).reverse.dropWhile isSpaceChar).reverse

/-- `normalize_text` from `market_scout/utils/__init__.py`:
empty input short-circuits to `""`; otherwise
`text = " ".join(text.split())`, then
`text = re.sub(r"[^\w\s֐-׿]", " ", text)`, then `text.strip()`. -/
def normalize_text (s : List Char) : List Char :=
  if s = [] then [] else pyStrip ((joinSpace (words s)).map replChar)

/-- Whether a string contains two consecutive space characters. -/
def hasDoubleSpace : List Char → Bool
  | a :: b :: t => (a = ' ' && b = ' ') || hasDoubleSpace (b :: t)
  | _ => false

/-- A word produced by `words`: nonempty and free of whitespace. -/
def GoodWord (w : List Char) : Prop :=
  w ≠ [] ∧ ∀ c ∈ w, isSpaceChar c = false

/-- A word all of whose characters survive the substitution step. -/
def CleanWord (w : List Char) : Prop :=
  w ≠ [] ∧ ∀ c ∈ w, keepChar c = true ∧ isSpaceChar c = false


/-- Currency glyphs and thousands separators removed by
`re.sub(r"[₪$€,]", "", text)` in `extract_price`. -/
def isCurrencyChar (c : Char) : Bool :=
  c = '₪' || c = '$' || c = '€' || c = ','

/-- The cleaning pass of `extract_price`. -/
def cleanText (s : List Char) : List Char :=
  s.filter (fun c => !isCurrencyChar c)

/-- Value of a list of decimal digit characters, most significant first. -/
def digitsToNat (ds : List Char) : Nat :=
  ds.foldl (fun n c => 10 * n + (c.toNat - 48)) 0

/-- Leftmost match of the pattern a digit run with an optional dot plus one or two digits parsed as a
number: scan to the first digit, read the maximal digit run, then
greedily an optional dot followed by one or two digits. -/
def findNumber : List Char → Option ℚ
  | [] => none
  | c :: cs =>
    if c.isDigit then
      some
        (let intPart := c :: cs.takeWhile Char.isDigit
         match cs.dropWhile Char.isDigit with
         | '.' :: r =>
           let fracPart := (r.takeWhile Char.isDigit).take 2
           if fracPart = [] then (digitsToNat intPart : ℚ)
           else (digitsToNat intPart : ℚ) + (digitsToNat fracPart : ℚ) / 10 ^ fracPart.length
         | _ => (digitsToNat intPart : ℚ))
    else findNumber cs

/-- `extract_price` from `market_scout/utils/__init__.py`: empty input
yields `None`; otherwise currency glyphs and commas are removed, then the
first decimal-number token is parsed.  The source's second regex
alternative (number with comma-separated groups) matches exactly when the
first one does — commas are already gone — so it is unreachable, and the
`float` conversion of a matched token never fails, so the `ValueError`
handler is unreachable as well; both dead branches are omitted here. -/
def extract_price (s : List Char) : Option ℚ :=
  if s = [] then none else findNumber (cleanText s)


/-- Python's substring test `needle in hay` on strings. -/
def substrB : List Char → List Char → Bool
  | hay, needle =>
    needle.isPrefixOf hay ||
      match hay with
      | [] => false
      | _ :: t => substrB t needle

/-- Python `str.lower()`, modelled on the ASCII range (Hebrew has no case). -/
def pyLower (s : List Char) : List Char :=
  s.map Char.toLower

/-- The fixed gazetteer of `extract_city`, Hebrew entries before English,
in source order. -/
def cities : List (List Char) :=
  ["תל אביב".data, "חיפה".data, "ירושלים".data, "באר שבע".data,
   "נתניה".data, "פתח תקווה".data, "אשדוד".data, "רישון לציון".data,
   "אשקלון".data, "רעננה".data, "רמת גן".data, "הרצליה".data,
   "כפר סבא".data, "חולון".data, "בת ים".data, "רמלה".data,
   "Tel Aviv".data, "Haifa".data, "Jerusalem".data, "Beer Sheva".data,
   "Netanya".data, "Petah Tikva".data]

/-- `extract_city` from `market_scout/utils/__init__.py`: empty input
yields `None`; otherwise the first gazetteer entry whose lower-cased form
is a substring of the lower-cased input is returned in canonical casing. -/
def extract_city (s : List Char) : Option (List Char) :=
  if s = [] then none
  else cities.find? (fun city => substrB (pyLower s) (pyLower city))


/-- The ordered category keyword table of `categorize_product`
(Python dicts iterate in insertion order). -/
def categoriesList : List (List Char × List (List Char)) :=
  [("cpu".data,
    ["cpu".data, "processor".data, "מעבד".data, "intel".data, "amd".data,
     "ryzen".data, "core".data]),
   ("gpu".data,
    ["gpu".data, "graphics".data, "video card".data, "כרטיס מסך".data,
     "nvidia".data, "amd".data, "rtx".data, "gtx".data]),
   ("motherboard".data,
    ["motherboard".data, "לוח אם".data, "mobo".data, "mb".data]),
   ("ram".data,
    ["ram".data, "memory".data, "זיכרון".data, "ddr4".data, "ddr5".data,
     "gb".data]),
   ("storage".data,
    ["ssd".data, "hdd".data, "storage".data, "אחסון".data,
     "hard drive".data, "nvme".data]),
   ("psu".data,
    ["psu".data, "power supply".data, "ספק כוח".data, "power".data]),
   ("cooling".data,
    ["cooling".data, "cooler".data, "fan".data, "קירור".data,
     "radiator".data]),
   ("case".data,
    ["case".data, "chassis".data, "מארז".data, "tower".data]),
   ("complete_build".data,
    ["מחשב".data, "computer".data, "pc".data, "build".data, "מורכב".data])]

/-- `categorize_product` from `market_scout/utils/__init__.py`:
lower-cases title, a space, and description and returns the first
category in table order one of whose keywords is a substring; `"other"`
when none matches. -/
def categorize_product (title desc : List Char) : List Char :=
  let text := pyLower (title ++ ' ' :: desc)
  match categoriesList.find? (fun p => p.2.any (fun k => substrB text k)) with
  | some p => p.1
  | none => "other".data


/-- `ComponentSpecs` from `src/app/services/scoring.py`.  Scores and
modifiers are Python floats (modelled as `ℚ`); the capacity fields are
Python ints (unbounded, modelled as `ℤ`). -/
structure ComponentSpecs where
  cpu_score : ℚ := 0
  gpu_score : ℚ := 0
  ram_gb : ℤ := 0
  storage_gb : ℤ := 0
  gpu_vram_gb : ℤ := 0
  platform_score : ℚ := 1
  liquidity_score : ℚ := 1
  condition_score : ℚ := 1
deriving DecidableEq

/-- `ScoringResult` from `src/app/services/scoring.py`. -/
structure ScoringResult where
  rvi : ℚ
  pvr : ℚ
  final_score : ℚ
  price : ℚ
  components : ComponentSpecs
  vram_penalty_applied : Bool
deriving DecidableEq

/-- The configuration a `ScoringService` instance reads from `settings`
at construction time. -/
structure ScoringService where
  cpu_weight : ℚ
  gpu_weight : ℚ
  other_weight : ℚ
  vram_threshold : ℤ
  vram_penalty : ℚ
deriving DecidableEq

/-- The `Settings` defaults of `src/app/core/config.py`:
weights 0.4 / 0.5 / 0.1, threshold 8 GB, penalty factor 0.85. -/
def defaultService : ScoringService :=
  ⟨2/5, 1/2, 1/10, 8, 17/20⟩

/-- The `other_score` local of `calculate_rvi`:
`min((ram_gb / 32.0) * 50 + (storage_gb / 1000.0) * 50, 100.0)`. -/
def otherScore (c : ComponentSpecs) : ℚ :=
  min (((c.ram_gb : ℚ) / 32) * 50 + ((c.storage_gb : ℚ) / 1000) * 50) 100

/-- The guard of the VRAM penalty branch:
`components.gpu_vram_gb > 0 and components.gpu_vram_gb <= self.vram_threshold`. -/
def vramCond (svc : ScoringService) (c : ComponentSpecs) : Prop :=
  0 < c.gpu_vram_gb ∧ c.gpu_vram_gb ≤ svc.vram_threshold

instance (svc : ScoringService) (c : ComponentSpecs) : Decidable (vramCond svc c) :=
  inferInstanceAs (Decidable (0 < c.gpu_vram_gb ∧ c.gpu_vram_gb ≤ svc.vram_threshold))

/-- The value `calculate_rvi` has computed just before the penalty branch:
`base_rvi * platform_score * liquidity_score * condition_score`. -/
def rviPrePenalty (svc : ScoringService) (c : ComponentSpecs) : ℚ :=
  (c.cpu_score * svc.cpu_weight + c.gpu_score * svc.gpu_weight +
      otherScore c * svc.other_weight)
    * c.platform_score * c.liquidity_score * c.condition_score

/-- `ScoringService.calculate_rvi`. -/
def calculate_rvi (svc : ScoringService) (c : ComponentSpecs) : ℚ :=
  if vramCond svc c then rviPrePenalty svc c * svc.vram_penalty
  else rviPrePenalty svc c

/-- `ScoringService.calculate_pvr`: returns 0 on non-positive price
instead of failing, otherwise `rvi / price`. -/
def calculate_pvr (svc : ScoringService) (rvi price : ℚ) : ℚ :=
  if price ≤ 0 then 0 else rvi / price

/-- `ScoringService.score_listing`.  The Python `raise ValueError` on
`price <= 0` is modelled as `none`; every other path returns `some`. -/
def score_listing (svc : ScoringService) (price : ℚ) (c : ComponentSpecs) :
    Option ScoringResult :=
  if price ≤ 0 then none
  else
    let rvi := calculate_rvi svc c
    let pvr := calculate_pvr svc rvi price
    let final_score := pvr * 1000
    let vram_penalty_applied := decide (vramCond svc c)
    some ⟨rvi, pvr, final_score, price, c, vram_penalty_applied⟩

/-- Crosscheck against the repository tests: the 12 GB configuration of
`test_calculate_rvi_basic` scores exactly 82 and the 8 GB configuration
of `test_calculate_rvi_with_vram_penalty` exactly 69.7. -/
theorem calculate_rvi_matches_repo_tests :
    calculate_rvi defaultService ⟨80, 90, 16, 500, 12, 1, 1, 1⟩ = 82
    ∧ calculate_rvi defaultService ⟨80, 90, 16, 500, 8, 1, 1, 1⟩ = 697/10 := by
  constructor <;>
    norm_num [calculate_rvi, rviPrePenalty, otherScore, vramCond, defaultService]

/-- C3: for every configuration and every `ComponentSpecs`, `calculate_rvi`
is the weighted blend of `cpu_score`, `gpu_score` and the saturating
`other_score = min((ram_gb / 32) * 50 + (storage_gb / 1000) * 50, 100)`,
multiplied by the platform, liquidity and condition modifiers, with the
VRAM penalty factor applied after that product exactly when its guard
holds; in particular `ram_gb = 128, storage_gb = 4000` saturates
`other_score` at exactly 100. -/
theorem calculate_rvi_formula :
    (∀ svc c, calculate_rvi svc c =
      (if vramCond svc c then svc.vram_penalty else 1) *
        ((c.cpu_score * svc.cpu_weight + c.gpu_score * svc.gpu_weight +
            min (((c.ram_gb : ℚ) / 32) * 50 + ((c.storage_gb : ℚ) / 1000) * 50) 100 *
              svc.other_weight)
          * c.platform_score * c.liquidity_score * c.condition_score))
  ∧ (∀ c : ComponentSpecs, c.ram_gb = 128 → c.storage_gb = 4000 → otherScore c = 100) := by
  constructor
  · intro svc c
    unfold calculate_rvi rviPrePenalty otherScore
    split_ifs <;> ring
  · intro c h1 h2
    norm_num [otherScore, h1, h2, min_def]

/-- Witness for C3: the saturation clause at the spec's concrete record. -/
theorem calculate_rvi_formula_witness :
    otherScore ⟨0, 0, 128, 4000, 0, 1, 1, 1⟩ = 100 :=
  calculate_rvi_formula.2 ⟨0, 0, 128, 4000, 0, 1, 1, 1⟩ rfl rfl

/-- C4: every `ScoringResult` returned by `score_listing` has
`vram_penalty_applied` true exactly when `0 < gpu_vram_gb ≤
vram_penalty_threshold`, its `rvi` is multiplied by the penalty factor
exactly in that case, and the boundary behaviour is: equal to the
(positive) threshold triggers the penalty, threshold + 1 does not, and 0
never does. -/
theorem score_listing_vram_penalty_iff :
    ∀ svc price c r, score_listing svc price c = some r →
      ((r.vram_penalty_applied = true ↔ vramCond svc c)
      ∧ (vramCond svc c → r.rvi = rviPrePenalty svc c * svc.vram_penalty)
      ∧ (¬ vramCond svc c → r.rvi = rviPrePenalty svc c)
      ∧ (c.gpu_vram_gb = svc.vram_threshold → 0 < svc.vram_threshold →
          r.vram_penalty_applied = true)
      ∧ (c.gpu_vram_gb = svc.vram_threshold + 1 → r.vram_penalty_applied = false)
      ∧ (c.gpu_vram_gb = 0 → r.vram_penalty_applied = false)) := by
  intro svc price c r h
  simp only [score_listing] at h
  split_ifs at h with hp
  injection h with h
  subst h
  refine ⟨by simp, ?_, ?_, ?_, ?_, ?_⟩
  · intro hc; simp [calculate_rvi, hc]
  · intro hc; simp [calculate_rvi, hc]
  · intro h1 h2
    simp only [decide_eq_true_eq, vramCond]
    omega
  · intro h1
    simp only [decide_eq_false_iff_not, vramCond, not_and, not_le]
    omega
  · intro h1
    simp only [decide_eq_false_iff_not, vramCond, not_and, not_le]
    omega

/-- Witness for C4: at the default configuration, a listing with exactly
8 GB of VRAM is marked penalized. -/
theorem score_listing_vram_penalty_iff_witness :
    (⟨0, 0, 0, 1, ⟨0, 0, 0, 0, 8, 1, 1, 1⟩, true⟩ : ScoringResult).vram_penalty_applied = true :=
  (score_listing_vram_penalty_iff defaultService 1 ⟨0, 0, 0, 0, 8, 1, 1, 1⟩
      ⟨0, 0, 0, 1, ⟨0, 0, 0, 0, 8, 1, 1, 1⟩, true⟩
      (by norm_num [score_listing, calculate_rvi, calculate_pvr, rviPrePenalty,
        otherScore, vramCond, defaultService, min_def])).1.mpr
    (by norm_num [vramCond, defaultService])

/-- C5: `score_listing` fails exactly when `price ≤ 0`; `calculate_pvr`
never fails, returning 0 for non-positive price and `rvi / price`
otherwise; and a successful result's `final_score` is exactly
`pvr * 1000` with `pvr = rvi / price`. -/
theorem score_listing_price_validation :
    (∀ svc price c, score_listing svc price c = none ↔ price ≤ 0)
  ∧ (∀ svc rvi price, price ≤ 0 → calculate_pvr svc rvi price = 0)
  ∧ (∀ svc rvi price, 0 < price → calculate_pvr svc rvi price = rvi / price)
  ∧ (∀ svc price c r, score_listing svc price c = some r →
      r.final_score = r.pvr * 1000 ∧ r.pvr = calculate_rvi svc c / price
        ∧ r.rvi = calculate_rvi svc c ∧ r.price = price) := by
  refine ⟨?_, ?_, ?_, ?_⟩
  · intro svc price c
    simp only [score_listing]
    split_ifs with hp <;> simp [hp]
  · intro svc rvi price h
    simp [calculate_pvr, h]
  · intro svc rvi price h
    simp [calculate_pvr, not_le.mpr h]
  · intro svc price c r h
    simp only [score_listing] at h
    split_ifs at h with hp
    injection h with h
    subst h
    exact ⟨rfl, by simp [calculate_pvr, hp], rfl, rfl⟩

/-- Witness for C5: price 0 and price -1 are both rejected. -/
theorem score_listing_price_validation_witness :
    score_listing defaultService 0 ⟨0, 0, 0, 0, 0, 1, 1, 1⟩ = none
    ∧ score_listing defaultService (-1) ⟨0, 0, 0, 0, 0, 1, 1, 1⟩ = none :=
  ⟨(score_listing_price_validation.1 defaultService 0 ⟨0, 0, 0, 0, 0, 1, 1, 1⟩).mpr
      (by norm_num),
   (score_listing_price_validation.1 defaultService (-1) ⟨0, 0, 0, 0, 0, 1, 1, 1⟩).mpr
      (by norm_num)⟩

/-- C10: the valuation engine is total away from the price check — every
positive price yields a result for every `ComponentSpecs`, with no field
validation or clamping anywhere except the `other_score` cap — and
out-of-nominal inputs propagate: a negative `cpu_score` produces a
negative RVI under the default configuration. -/
theorem scoring_engine_totality :
    (∀ svc price c, 0 < price → (score_listing svc price c).isSome = true)
  ∧ calculate_rvi defaultService ⟨-100, 0, 0, 0, 0, 1, 1, 1⟩ < 0 := by
  constructor
  · intro svc price c h
    simp [score_listing, not_le.mpr h]
  · norm_num [calculate_rvi, rviPrePenalty, otherScore, vramCond, defaultService, min_def]

/-- Witness for C10: totality at a concrete positive price. -/
theorem scoring_engine_totality_witness :
    (score_listing defaultService 1 ⟨0, 0, 0, 0, 0, 1, 1, 1⟩).isSome = true :=
  scoring_engine_totality.1 defaultService 1 ⟨0, 0, 0, 0, 0, 1, 1, 1⟩ (by norm_num)

/-- A decimal digit is never one of the stripped currency characters. -/
theorem digit_not_currency {c : Char} (h : c.isDigit = true) :
    isCurrencyChar c = false := by
  by_contra hc
  rw [Bool.not_eq_false] at hc
  simp only [isCurrencyChar, Bool.or_eq_true, decide_eq_true_eq] at hc
  rcases hc with ((rfl | rfl) | rfl) | rfl <;> exact absurd h (by decide)

/-- The number scanner fails exactly on digit-free text. -/
theorem findNumber_eq_none_iff (l : List Char) :
    findNumber l = none ↔ ∀ c ∈ l, c.isDigit = false := by
  induction l with
  | nil => simp [findNumber]
  | cons c cs ih =>
    obtain h | h := Bool.eq_false_or_eq_true c.isDigit
    · simp [findNumber, h]
    · have hstep : findNumber (c :: cs) = findNumber cs := by simp [findNumber, h]
      rw [hstep, ih]
      simp [h]

/-- C7: `extract_price` returns `None` exactly when the input is empty or
contains no decimal digit; every path is total, so no malformed text can
make it fail. -/
theorem extract_price_none_iff (s : List Char) :
    extract_price s = none ↔ ∀ c ∈ s, c.isDigit = false := by
  unfold extract_price
  split_ifs with hs
  · subst hs; simp
  · rw [findNumber_eq_none_iff]
    constructor
    · intro h c hc
      by_contra hd
      rw [Bool.not_eq_false] at hd
      have hmem : c ∈ cleanText s := by
        unfold cleanText
        rw [List.mem_filter]
        exact ⟨hc, by simp [digit_not_currency hd]⟩
      exact absurd (h c hmem) (by simp [hd])
    · intro h c hc
      unfold cleanText at hc
      exact h c (List.mem_filter.mp hc).1

/-- Witness for C7: a digit-free text yields `None`. -/
theorem extract_price_none_iff_witness :
    extract_price "no price here".data = none :=
  (extract_price_none_iff "no price here".data).mpr (by decide)

/-- C6: `extract_price` strips the currency glyphs and every comma before
scanning, so its value is insensitive to commas anywhere in the input and
a number with thousands separators parses as the concatenation of its
digit groups: `extract_price "₪1,500" = extract_price "1500" = 1500`. -/
theorem extract_price_comma_insensitive :
    extract_price "₪1,500".data = some 1500
  ∧ extract_price "1500".data = some 1500
  ∧ ∀ s : List Char, extract_price s = extract_price (s.filter (fun c => c ≠ ',')) := by
  refine ⟨by decide, by decide, ?_⟩
  intro s
  have hclean : cleanText (s.filter (fun c => c ≠ ',')) = cleanText s := by
    unfold cleanText
    rw [List.filter_filter]
    apply List.filter_congr
    intro c _
    obtain h | h := Bool.eq_false_or_eq_true (isCurrencyChar c)
    · simp [h]
    · have hne : c ≠ ',' := by rintro rfl; exact absurd h (by decide)
      simp [h, hne]
  unfold extract_price
  by_cases hs : s = []
  · subst hs; simp
  · by_cases hf : s.filter (fun c => c ≠ ',') = []
    · rw [if_neg hs, if_pos hf]
      have hempty : cleanText s = [] := by rw [← hclean, hf]; rfl
      rw [hempty]
      rfl
    · rw [if_neg hs, if_neg hf, hclean]


/-- `substrB` decides Python's substring containment. -/
theorem substrB_correct (hay needle : List Char) :
    substrB hay needle = true ↔ needle <:+: hay := by
  induction hay with
  | nil => simp [substrB, List.isPrefixOf_iff_prefix, List.infix_nil]
  | cons c t ih => simp [substrB, List.isPrefixOf_iff_prefix, ih, List.infix_cons_iff]

/-- C8: `extract_city` returns the gazetteer entry earliest in the fixed
list order whose lower-cased form is contained in the lower-cased input,
in the gazetteer's canonical casing; it returns `None` exactly when no
entry is contained (in particular on empty input). -/
theorem extract_city_first_match :
    (∀ s : List Char, extract_city s = none ↔
      ∀ city ∈ cities, ¬ (pyLower city <:+: pyLower s))
  ∧ (∀ s city, extract_city s = some city →
      city ∈ cities ∧ (pyLower city <:+: pyLower s)
        ∧ ∃ pre suf, cities = pre ++ city :: suf
            ∧ ∀ c ∈ pre, ¬ (pyLower c <:+: pyLower s))
  ∧ extract_city "נמצא בחיפה".data = some "חיפה".data
  ∧ extract_city "tel aviv".data = some "Tel Aviv".data := by
  refine ⟨?_, ?_, by decide, by decide⟩
  · intro s
    unfold extract_city
    by_cases hs : s = []
    · subst hs
      rw [if_pos rfl]
      refine iff_of_true rfl ?_
      intro city hcity hinf
      have hlow : pyLower city = [] := List.infix_nil.mp (by simpa [pyLower] using hinf)
      have hnil : city = [] := by simpa [pyLower] using hlow
      subst hnil
      exact absurd hcity (by decide)
    · rw [if_neg hs, List.find?_eq_none]
      simp only [substrB_correct, Bool.not_eq_true]
  · intro s city h
    unfold extract_city at h
    by_cases hs : s = []
    · rw [if_pos hs] at h
      cases h
    · rw [if_neg hs, List.find?_eq_some] at h
      obtain ⟨hp, pre, suf, hsplit, hpre⟩ := h
      refine ⟨by rw [hsplit]; simp, (substrB_correct _ _).mp hp, pre, suf, hsplit, ?_⟩
      intro c hc hinf
      have hfalse := hpre c hc
      rw [Bool.not_eq_true'] at hfalse
      exact absurd ((substrB_correct _ _).mpr hinf) (by simp [hfalse])

/-- Witness for C8: the Hebrew example from the spec discharges the
first-match characterization. -/
theorem extract_city_first_match_witness :
    "חיפה".data ∈ cities ∧ (pyLower "חיפה".data <:+: pyLower "נמצא בחיפה".data) := by
  have h := extract_city_first_match.2.1 "נמצא בחיפה".data "חיפה".data (by decide)
  exact ⟨h.1, h.2.1⟩

/-- C9: `categorize_product` lower-cases title-space-description and
returns the first category in the fixed nine-entry order with a keyword
contained in the text; any text containing "amd" resolves to `cpu`
(the earlier of the two overlapping lists), `"Intel Core i7"` maps to
`cpu`, and `"other"` is returned exactly when no keyword set matches,
including on empty text. -/
theorem categorize_product_first_match :
    categorize_product "Intel Core i7".data [] = "cpu".data
  ∧ categorize_product [] [] = "other".data
  ∧ (∀ title desc, ("amd".data <:+: pyLower (title ++ ' ' :: desc)) →
      categorize_product title desc = "cpu".data)
  ∧ (∀ title desc,
      (∀ p ∈ categoriesList, ∀ k ∈ p.2, ¬ (k <:+: pyLower (title ++ ' ' :: desc))) →
      categorize_product title desc = "other".data)
  ∧ (∀ title desc name, categorize_product title desc = name → name ≠ "other".data →
      ∃ kws pre suf, categoriesList = pre ++ (name, kws) :: suf
        ∧ (∃ k ∈ kws, k <:+: pyLower (title ++ ' ' :: desc))
        ∧ ∀ p ∈ pre, ∀ k ∈ p.2, ¬ (k <:+: pyLower (title ++ ' ' :: desc))) := by
  refine ⟨by decide, by decide, ?_, ?_, ?_⟩
  · intro title desc h
    have hfind : categoriesList.find?
        (fun p => p.2.any (fun k => substrB (pyLower (title ++ ' ' :: desc)) k)) =
        some ("cpu".data,
          ["cpu".data, "processor".data, "מעבד".data, "intel".data, "amd".data,
           "ryzen".data, "core".data]) := by
      unfold categoriesList
      exact List.find?_cons_of_pos _ (by
        simp only [List.any_eq_true]
        exact ⟨"amd".data, by decide, (substrB_correct _ _).mpr h⟩)
    simp only [categorize_product, hfind]
  · intro title desc h
    have hnone : categoriesList.find?
        (fun p => p.2.any (fun k => substrB (pyLower (title ++ ' ' :: desc)) k)) = none := by
      rw [List.find?_eq_none]
      intro p hp
      simp only [Bool.not_eq_true, List.any_eq_false]
      intro k hk
      rw [← Bool.not_eq_true]
      exact fun hb => h p hp k hk ((substrB_correct _ _).mp hb)
    simp only [categorize_product, hnone]
  · intro title desc name h hneq
    cases hfind : categoriesList.find?
        (fun p => p.2.any (fun k => substrB (pyLower (title ++ ' ' :: desc)) k)) with
    | none =>
      have hother : categorize_product title desc = "other".data := by
        simp only [categorize_product, hfind]
      rw [h] at hother
      exact absurd hother hneq
    | some p =>
      have hval : categorize_product title desc = p.1 := by
        simp only [categorize_product, hfind]
      rw [h] at hval
      rw [List.find?_eq_some] at hfind
      obtain ⟨hp, pre, suf, hsplit, hpre⟩ := hfind
      subst hval
      refine ⟨p.2, pre, suf, hsplit, ?_, ?_⟩
      · rw [List.any_eq_true] at hp
        obtain ⟨k, hk, hsub⟩ := hp
        exact ⟨k, hk, (substrB_correct _ _).mp hsub⟩
      · intro q hq k hk hinf
        have hfalse := hpre q hq
        rw [Bool.not_eq_true'] at hfalse
        rw [List.any_eq_false] at hfalse
        exact absurd ((substrB_correct _ _).mpr hinf) (by simpa using hfalse k hk)

/-- Witness for C9: a title containing "amd" resolves to `cpu`. -/
theorem categorize_product_first_match_witness :
    categorize_product "AMD Ryzen 5".data [] = "cpu".data :=
  categorize_product_first_match.2.2.1 "AMD Ryzen 5".data [] (by decide)

/-- Feeding non-whitespace characters only extends the accumulator. -/
theorem wordsAux_append_nonspace (w : List Char)
    (hw : ∀ c ∈ w, isSpaceChar c = false) :
    ∀ acc t, wordsAux acc (w ++ t) = wordsAux (w.reverse ++ acc) t := by
  induction w with
  | nil => intro acc t; simp
  | cons c cs ih =>
    intro acc t
    have hc : isSpaceChar c = false := hw c (by simp)
    have hcs : ∀ x ∈ cs, isSpaceChar x = false := fun x hx => hw x (by simp [hx])
    rw [List.cons_append]
    rw [show wordsAux acc (c :: (cs ++ t)) = wordsAux (c :: acc) (cs ++ t) by
      simp [wordsAux, hc]]
    rw [ih hcs]
    simp [List.append_assoc]

/-- The splitter at a whitespace character flushes the accumulator. -/
theorem wordsAux_space (acc t : List Char) {c : Char} (hc : isSpaceChar c = true) :
    wordsAux acc (c :: t) =
      if acc = [] then wordsAux [] t else acc.reverse :: wordsAux [] t := by
  simp [wordsAux, hc]

/-- Every word produced by the splitter is nonempty and whitespace-free. -/
theorem wordsAux_good (s : List Char) :
    ∀ acc, (∀ c ∈ acc, isSpaceChar c = false) →
      ∀ w ∈ wordsAux acc s, GoodWord w := by
  induction s with
  | nil =>
    intro acc hacc w hw
    rw [wordsAux] at hw
    split_ifs at hw with h
    · cases hw
    · rw [List.mem_singleton] at hw
      subst hw
      exact ⟨by simpa using h, fun c hc => hacc c (by simpa using hc)⟩
  | cons c cs ih =>
    intro acc hacc w hw
    rw [wordsAux] at hw
    split_ifs at hw with h1 h2
    · exact ih [] (by simp) w hw
    · rcases List.mem_cons.mp hw with rfl | hw'
      · exact ⟨by simpa using h2, fun x hx => hacc x (by simpa using hx)⟩
      · exact ih [] (by simp) w hw'
    · refine ih (c :: acc) ?_ w hw
      intro x hx
      rcases List.mem_cons.mp hx with rfl | hx'
      · simpa using h1
      · exact hacc x hx'

/-- Characters of split words come from the accumulator or the input. -/
theorem wordsAux_chars (s : List Char) :
    ∀ acc w, w ∈ wordsAux acc s → ∀ c ∈ w, c ∈ acc ∨ c ∈ s := by
  induction s with
  | nil =>
    intro acc w hw c hc
    rw [wordsAux] at hw
    split_ifs at hw with h
    · cases hw
    · rw [List.mem_singleton] at hw
      subst hw
      exact Or.inl (by simpa using hc)
  | cons d cs ih =>
    intro acc w hw c hc
    rw [wordsAux] at hw
    split_ifs at hw with h1 h2
    · rcases ih [] w hw c hc with h | h
      · cases h
      · exact Or.inr (List.mem_cons_of_mem d h)
    · rcases List.mem_cons.mp hw with rfl | hw'
      · exact Or.inl (by simpa using hc)
      · rcases ih [] w hw' c hc with h | h
        · cases h
        · exact Or.inr (List.mem_cons_of_mem d h)
    · rcases ih (d :: acc) w hw c hc with h | h
      · rcases List.mem_cons.mp h with rfl | h'
        · exact Or.inr (List.mem_cons_self _ _)
        · exact Or.inl h'
      · exact Or.inr (List.mem_cons_of_mem d h)

/-- Equation for `joinSpace` on a list with at least two words. -/
theorem joinSpace_cons_cons (w w' : List Char) (ws : List (List Char)) :
    joinSpace (w :: w' :: ws) = w ++ ' ' :: joinSpace (w' :: ws) := rfl

/-- Splitting a canonical join recovers the word list. -/
theorem words_joinSpace (ws : List (List Char)) (hws : ∀ w ∈ ws, GoodWord w) :
    words (joinSpace ws) = ws := by
  induction ws with
  | nil => rfl
  | cons w ws' ih =>
    obtain ⟨hne, hchars⟩ := hws w (by simp)
    cases ws' with
    | nil =>
      show wordsAux [] (joinSpace [w]) = [w]
      have hs : joinSpace [w] = w ++ [] := by simp [joinSpace]
      rw [hs, wordsAux_append_nonspace w hchars [] []]
      rw [wordsAux]
      rw [if_neg (by simpa using hne)]
      simp
    | cons w2 ws2 =>
      show wordsAux [] (joinSpace (w :: w2 :: ws2)) = w :: w2 :: ws2
      rw [joinSpace_cons_cons]
      rw [wordsAux_append_nonspace w hchars [] (' ' :: joinSpace (w2 :: ws2))]
      rw [wordsAux_space _ _ (by decide)]
      rw [if_neg (by simpa using hne)]
      simp only [List.append_nil, List.reverse_reverse]
      rw [show wordsAux [] (joinSpace (w2 :: ws2)) = words (joinSpace (w2 :: ws2)) from rfl]
      rw [ih (fun x hx => hws x (by simp [hx]))]

/-- `dropWhile` leaves a head falsifying the predicate. -/
theorem head_dropWhile_false (p : Char → Bool) (l : List Char) :
    ∀ c, (l.dropWhile p).head? = some c → p c = false := by
  induction l with
  | nil => intro c hc; cases hc
  | cons a t ih =>
    intro c hc
    rw [List.dropWhile_cons] at hc
    split_ifs at hc with h
    · exact ih c hc
    · rw [List.head?_cons] at hc
      injection hc with hc
      subst hc
      simpa using h

/-- Strings with non-whitespace head and last characters are fixed by
`pyStrip`. -/
theorem pyStrip_eq_self (s : List Char)
    (hhead : ∀ c, s.head? = some c → isSpaceChar c = false)
    (hlast : ∀ c, s.getLast? = some c → isSpaceChar c = false) :
    pyStrip s = s := by
  have h1 : s.dropWhile isSpaceChar = s := by
    cases hs : s with
    | nil => rfl
    | cons a t =>
      have ha : isSpaceChar a = false := hhead a (by rw [hs, List.head?_cons])
      rw [List.dropWhile_cons, if_neg (by simp [ha])]
  have h2 : s.reverse.dropWhile isSpaceChar = s.reverse := by
    cases hr : s.reverse with
    | nil => rfl
    | cons a t =>
      have ha : isSpaceChar a = false := by
        apply hlast
        rw [← List.head?_reverse, hr, List.head?_cons]
      rw [List.dropWhile_cons, if_neg (by simp [ha])]
  unfold pyStrip
  rw [h1, h2, List.reverse_reverse]

/-- The head of `pyStrip` is never whitespace. -/
theorem pyStrip_head (t : List Char) :
    ∀ c, (pyStrip t).head? = some c → isSpaceChar c = false := by
  intro c hc
  unfold pyStrip at hc
  rw [List.head?_reverse] at hc
  obtain ⟨pre, hpre⟩ := List.dropWhile_suffix
    (l := (t.dropWhile isSpaceChar).reverse) isSpaceChar
  have hrev : ((t.dropWhile isSpaceChar).reverse).getLast? = some c := by
    rw [← hpre, List.getLast?_append, hc, Option.or_some]
  rw [List.getLast?_reverse] at hrev
  exact head_dropWhile_false _ _ c hrev

/-- The last character of `pyStrip` is never whitespace. -/
theorem pyStrip_getLast (t : List Char) :
    ∀ c, (pyStrip t).getLast? = some c → isSpaceChar c = false := by
  intro c hc
  unfold pyStrip at hc
  rw [List.getLast?_reverse] at hc
  exact head_dropWhile_false _ _ c hc

/-- Joining nonempty words gives a nonempty string. -/
theorem joinSpace_ne_nil (ws : List (List Char)) (hne : ws ≠ [])
    (hws : ∀ w ∈ ws, w ≠ []) : joinSpace ws ≠ [] := by
  cases ws with
  | nil => exact absurd rfl hne
  | cons w ws' =>
    cases ws' with
    | nil => simpa [joinSpace] using hws w (by simp)
    | cons w2 ws2 =>
      rw [joinSpace_cons_cons]
      exact List.append_ne_nil_of_left_ne_nil (hws w (by simp)) _

/-- The first character of a canonical join lies in one of the words. -/
theorem joinSpace_head (ws : List (List Char)) (hws : ∀ w ∈ ws, GoodWord w) :
    ∀ c, (joinSpace ws).head? = some c → ∃ w ∈ ws, c ∈ w := by
  cases ws with
  | nil => intro c hc; cases hc
  | cons w ws' =>
    intro c hc
    obtain ⟨hne, _⟩ := hws w (by simp)
    cases w with
    | nil => exact absurd rfl hne
    | cons a w' =>
      cases ws' with
      | nil =>
        rw [show joinSpace [a :: w'] = a :: w' from rfl, List.head?_cons] at hc
        injection hc with hc
        subst hc
        exact ⟨a :: w', by simp, by simp⟩
      | cons w2 ws2 =>
        rw [joinSpace_cons_cons, List.cons_append, List.head?_cons] at hc
        injection hc with hc
        subst hc
        exact ⟨a :: w', by simp, by simp⟩

/-- The last character of a canonical join lies in one of the words. -/
theorem joinSpace_getLast (ws : List (List Char)) (hws : ∀ w ∈ ws, GoodWord w) :
    ∀ c, (joinSpace ws).getLast? = some c → ∃ w ∈ ws, c ∈ w := by
  induction ws with
  | nil => intro c hc; cases hc
  | cons w ws' ih =>
    intro c hc
    cases ws' with
    | nil =>
      have hw : w.getLast? = some c := hc
      exact ⟨w, by simp, List.mem_of_mem_getLast? hw⟩
    | cons w2 ws2 =>
      rw [joinSpace_cons_cons, List.getLast?_append] at hc
      have hjne : joinSpace (w2 :: ws2) ≠ [] :=
        joinSpace_ne_nil _ (by simp) (fun x hx => (hws x (by simp [hx])).1)
      have hcons : (' ' :: joinSpace (w2 :: ws2)).getLast? =
          (joinSpace (w2 :: ws2)).getLast? := by
        cases hj : joinSpace (w2 :: ws2) with
        | nil => exact absurd hj hjne
        | cons b t => rw [List.getLast?_cons_cons]
      rw [hcons] at hc
      obtain ⟨d, hd⟩ := Option.isSome_iff_exists.mp (List.getLast?_isSome.mpr hjne)
      rw [hd, Option.or_some] at hc
      injection hc with hc
      subst hc
      obtain ⟨w', hw', hc'⟩ := ih (fun x hx => hws x (by simp [hx])) d hd
      exact ⟨w', by simp [hw'], hc'⟩

/-- Characters of a join come from a word or are the separator space. -/
theorem mem_joinSpace (ws : List (List Char)) :
    ∀ c ∈ joinSpace ws, (∃ w ∈ ws, c ∈ w) ∨ c = ' ' := by
  induction ws with
  | nil => intro c hc; cases hc
  | cons w ws' ih =>
    cases ws' with
    | nil =>
      intro c hc
      exact Or.inl ⟨w, by simp, hc⟩
    | cons w2 ws2 =>
      intro c hc
      rw [joinSpace_cons_cons, List.mem_append] at hc
      rcases hc with h | h
      · exact Or.inl ⟨w, by simp, h⟩
      · rcases List.mem_cons.mp h with rfl | h'
        · exact Or.inr rfl
        · rcases ih c h' with ⟨w', hw', hc'⟩ | h''
          · exact Or.inl ⟨w', by simp [hw'], hc'⟩
          · exact Or.inr h''

/-- `map replChar` fixes strings of kept characters. -/
theorem map_replChar_eq_self (s : List Char) (h : ∀ c ∈ s, keepChar c = true) :
    s.map replChar = s := by
  induction s with
  | nil => rfl
  | cons c cs ih =>
    rw [List.map_cons, ih (fun x hx => h x (by simp [hx]))]
    rw [show replChar c = c by rw [replChar, if_pos (h c (by simp))]]

/-- `pyStrip` only removes characters. -/
theorem mem_pyStrip (s : List Char) : ∀ c ∈ pyStrip s, c ∈ s := by
  intro c hc
  unfold pyStrip at hc
  rw [List.mem_reverse] at hc
  have hc2 : c ∈ (s.dropWhile isSpaceChar).reverse :=
    (List.dropWhile_suffix isSpaceChar).subset hc
  rw [List.mem_reverse] at hc2
  exact (List.dropWhile_suffix isSpaceChar).subset hc2

/-- Every character of a normalized string is in the kept class. -/
theorem normalize_text_chars (s : List Char) :
    ∀ c ∈ normalize_text s, keepChar c = true := by
  intro c hc
  unfold normalize_text at hc
  split_ifs at hc with hs
  · cases hc
  · have hc2 := mem_pyStrip _ c hc
    rw [List.mem_map] at hc2
    obtain ⟨d, _, hd⟩ := hc2
    subst hd
    rw [replChar]
    split_ifs with h
    · exact h
    · decide

/-- Every whitespace character of a normalized string is a plain space. -/
theorem normalize_text_space_chars (s : List Char) :
    ∀ c ∈ normalize_text s, isSpaceChar c = true → c = ' ' := by
  intro c hc hsp
  unfold normalize_text at hc
  split_ifs at hc with hs
  · cases hc
  · have hc2 := mem_pyStrip _ c hc
    rw [List.mem_map] at hc2
    obtain ⟨d, hd_mem, hd⟩ := hc2
    rcases mem_joinSpace _ d hd_mem with ⟨w, hw, hdw⟩ | rfl
    · have hdns : isSpaceChar d = false :=
        (wordsAux_good s [] (by simp) w hw).2 d hdw
      rw [replChar] at hd
      split_ifs at hd
      · subst hd
        rw [hdns] at hsp
        exact Bool.noConfusion hsp
      · subst hd
        rfl
    · rw [replChar] at hd
      split_ifs at hd <;> (subst hd; rfl)

/-- On inputs without replaced characters, `normalize_text` is exactly
whitespace collapsing plus trimming. -/
theorem normalize_text_of_keep (s : List Char) (h : ∀ c ∈ s, keepChar c = true) :
    normalize_text s = joinSpace (words s) := by
  unfold normalize_text
  split_ifs with hs
  · subst hs; rfl
  · rw [map_replChar_eq_self]
    · apply pyStrip_eq_self
      · intro c hc
        obtain ⟨w, hw, hcw⟩ :=
          joinSpace_head (words s) (wordsAux_good s [] (by simp)) c hc
        exact (wordsAux_good s [] (by simp) w hw).2 c hcw
      · intro c hc
        obtain ⟨w, hw, hcw⟩ :=
          joinSpace_getLast (words s) (wordsAux_good s [] (by simp)) c hc
        exact (wordsAux_good s [] (by simp) w hw).2 c hcw
    · intro c hc
      rcases mem_joinSpace (words s) c hc with ⟨w, hw, hcw⟩ | rfl
      · rcases wordsAux_chars s [] w hw c hcw with h' | h'
        · cases h'
        · exact h c h'
      · decide

/-- A canonical join of clean words is a fixed point of `normalize_text`. -/
theorem normalize_text_fixpoint (ws : List (List Char))
    (hws : ∀ w ∈ ws, CleanWord w) :
    normalize_text (joinSpace ws) = joinSpace ws := by
  have hgood : ∀ w ∈ ws, GoodWord w :=
    fun w hw => ⟨(hws w hw).1, fun c hc => ((hws w hw).2 c hc).2⟩
  have hkeep : ∀ c ∈ joinSpace ws, keepChar c = true := by
    intro c hc
    rcases mem_joinSpace ws c hc with ⟨w, hw, hcw⟩ | rfl
    · exact ((hws w hw).2 c hcw).1
    · decide
  rw [normalize_text_of_keep _ hkeep, words_joinSpace ws hgood]

/-- After two passes the result is a canonical join of clean words. -/
theorem normalize_text_twice_canonical (s : List Char) :
    ∃ ws, (∀ w ∈ ws, CleanWord w) ∧
      normalize_text (normalize_text s) = joinSpace ws := by
  refine ⟨words (normalize_text s), ?_,
    normalize_text_of_keep _ (normalize_text_chars s)⟩
  intro w hw
  have hgood := wordsAux_good (normalize_text s) [] (by simp) w hw
  refine ⟨hgood.1, fun c hc => ⟨?_, hgood.2 c hc⟩⟩
  rcases wordsAux_chars (normalize_text s) [] w hw c hc with h | h
  · cases h
  · exact normalize_text_chars s c h

/-- Unfolding equation for `hasDoubleSpace` on two or more characters. -/
theorem hasDoubleSpace_cons_cons (a b : Char) (t : List Char) :
    hasDoubleSpace (a :: b :: t) = ((a = ' ' && b = ' ') || hasDoubleSpace (b :: t)) :=
  rfl

/-- A block of non-whitespace characters cannot create a double space. -/
theorem hasDoubleSpace_append (w : List Char)
    (hw : ∀ c ∈ w, isSpaceChar c = false) :
    ∀ t, hasDoubleSpace (w ++ t) = hasDoubleSpace t := by
  induction w with
  | nil => intro t; rfl
  | cons c w' ih =>
    intro t
    have hc : isSpaceChar c = false := hw c (by simp)
    have hc' : ¬(c = ' ') := by rintro rfl; exact absurd hc (by decide)
    rw [List.cons_append]
    cases hwt : w' ++ t with
    | nil =>
      obtain ⟨hw'nil, htnil⟩ := List.append_eq_nil.mp hwt
      subst htnil
      rfl
    | cons d r =>
      rw [hasDoubleSpace_cons_cons, ← hwt,
        ih (fun x hx => hw x (by simp [hx])) t]
      simp [hc']

/-- A canonical join of good words contains no double space. -/
theorem hasDoubleSpace_joinSpace (ws : List (List Char))
    (hws : ∀ w ∈ ws, GoodWord w) : hasDoubleSpace (joinSpace ws) = false := by
  induction ws with
  | nil => rfl
  | cons w ws' ih =>
    cases ws' with
    | nil =>
      have hstep := hasDoubleSpace_append w ((hws w (by simp)).2) []
      rw [List.append_nil] at hstep
      exact hstep
    | cons w2 ws2 =>
      rw [joinSpace_cons_cons]
      rw [hasDoubleSpace_append w ((hws w (by simp)).2)]
      have hjne : joinSpace (w2 :: ws2) ≠ [] :=
        joinSpace_ne_nil _ (by simp) (fun x hx => (hws x (by simp [hx])).1)
      cases hj : joinSpace (w2 :: ws2) with
      | nil => exact absurd hj hjne
      | cons d r =>
        obtain ⟨w', hw', hdw⟩ :=
          joinSpace_head (w2 :: ws2) (fun x hx => hws x (by simp [hx])) d
            (by rw [hj, List.head?_cons])
        have hdns : isSpaceChar d = false := (hws w' (by simp [hw'])).2 d hdw
        have hdne : ¬(d = ' ') := by rintro rfl; exact absurd hdns (by decide)
        rw [hasDoubleSpace_cons_cons, ← hj,
          ih (fun x hx => hws x (by simp [hx]))]
        simp [hdne]

/-- C1 counterexample: `normalize_text` is not idempotent — adjacent
special characters become adjacent spaces that only a second pass
collapses. -/
theorem normalize_text_not_idempotent :
    normalize_text (normalize_text ['a', '!', '!', 'b'])
      ≠ normalize_text ['a', '!', '!', 'b'] := by decide

/-- C1 (amended): `normalize_text` stabilizes after two applications —
for every text, applying it three times equals applying it twice (a
single application is not idempotent because special characters are
replaced by spaces after whitespace collapsing). -/
theorem normalize_text_stable_after_two (s : List Char) :
    normalize_text (normalize_text (normalize_text s)) =
      normalize_text (normalize_text s) := by
  obtain ⟨ws, hclean, heq⟩ := normalize_text_twice_canonical s
  rw [heq]
  exact normalize_text_fixpoint ws hclean

/-- C2 counterexample: the output keeps underscores (which are not
alphanumeric, whitespace, or Hebrew) and can contain two consecutive
spaces. -/
theorem normalize_text_output_violations :
    '_' ∈ normalize_text ['a', '_', '!', '!', 'b']
      ∧ hasDoubleSpace (normalize_text ['a', '_', '!', '!', 'b']) = true := by
  decide

/-- C2 (amended): `normalize_text` maps empty input to the empty string;
every output character is a word character (alphanumeric or underscore),
whitespace, or Hebrew; every whitespace character in the output is a
plain space; the output neither starts nor ends with whitespace; and on
inputs with no replaced character the output has no two consecutive
spaces — but replaced special characters become spaces after whitespace
collapsing, so consecutive spaces can appear in general. -/
theorem normalize_text_shape :
    normalize_text [] = []
  ∧ (∀ s, ∀ c ∈ normalize_text s, keepChar c = true)
  ∧ (∀ s, ∀ c ∈ normalize_text s, isSpaceChar c = true → c = ' ')
  ∧ (∀ s c, (normalize_text s).head? = some c → isSpaceChar c = false)
  ∧ (∀ s c, (normalize_text s).getLast? = some c → isSpaceChar c = false)
  ∧ (∀ s, (∀ c ∈ s, keepChar c = true) →
      hasDoubleSpace (normalize_text s) = false) := by
  refine ⟨rfl, normalize_text_chars, normalize_text_space_chars, ?_, ?_, ?_⟩
  · intro s c hc
    unfold normalize_text at hc
    split_ifs at hc with hs
    · cases hc
    · exact pyStrip_head _ c hc
  · intro s c hc
    unfold normalize_text at hc
    split_ifs at hc with hs
    · cases hc
    · exact pyStrip_getLast _ c hc
  · intro s h
    rw [normalize_text_of_keep s h]
    exact hasDoubleSpace_joinSpace _ (wordsAux_good s [] (by simp))

/-- Witness for C2 (amended): the kept-class and collapse clauses at
concrete inputs. -/
theorem normalize_text_shape_witness :
    keepChar 'a' = true
    ∧ hasDoubleSpace (normalize_text ['a', ' ', ' ', 'b']) = false :=
  ⟨normalize_text_shape.2.1 ['a'] 'a' (by decide),
   normalize_text_shape.2.2.2.2.2 ['a', ' ', ' ', 'b'] (by decide)⟩

end MarketScout
